import Mathlib

/-!
# Verification of the granular Tukey-window effect (src/src/lib.rs)

Shallow embedding of the granular synthesis engine in `src/src/lib.rs`:

* `tukeyWeight` / `apply_tukey` embed the pure function `apply_tukey`
  (lines 231-246) over `ℝ`, with `Real.cos` and `Real.pi` for the C
  library's `cos` and `PI`.
* The engine state `Granular` and its operations `initEngine`
  (`Plugin::initialize`), `resetEngine` (`Plugin::reset`) and `process`
  (`Plugin::process`) are embedded over `ℚ` (exact f32 values are rational;
  float rounding is not modelled).  Rust panics (out-of-bounds indexing,
  `% 0`, empty `random_range`) are modelled by `Option`, with `none` for a
  panic.  The random number generator is modelled by the record `Rng`
  holding the values drawn by the four `rng.random*` calls of one block,
  and `random_range` panic semantics live in `randRangeIncl` /
  `randRangeExcl`.
* The only part of `process` that cannot be a computable `ℚ` function is
  the call `apply_tukey(&mut data, TUKEY_ALPHA)` (its weights are values
  of `cos`), so `process` takes the concrete windowing map as an explicit
  function argument `win`; every theorem about `process` holds for all
  `win`.  The window itself is verified separately over `ℝ`.
* Parameter smoothing is nih-plug library code (out of scope); `process`
  receives the four smoothed current values read once per block as
  `ParamVals`, exactly as the source reads `self.params.*.smoothed.next()`.
-/

/-! ## Constants (src/src/lib.rs lines 65-69) -/

/-- Length of the history ring buffer in seconds (`RING_SEC`). -/
def RING_SEC : ℚ := 5

/-- Upper bound on simultaneously active grains (`MAX_GRAINS`). -/
def MAX_GRAINS : ℕ := 25

/-- Shape of the Tukey window (`TUKEY_ALPHA`). -/
noncomputable def TUKEY_ALPHA : ℝ := 0.2

/-! ## Tukey window (src/src/lib.rs lines 231-246) -/

/-- Taper width `edge = (alpha * (n - 1.0) * 0.5).floor()` of `apply_tukey`. -/
noncomputable def tukeyEdge (alpha n : ℝ) : ℝ :=
  ((⌊alpha * (n - 1) * 0.5⌋ : ℤ) : ℝ)

/-- Weight that `apply_tukey` multiplies onto the sample at (real-cast)
index `k` of a buffer of (real-cast) length `n`. -/
noncomputable def tukeyWeight (alpha n k : ℝ) : ℝ :=
  if k < tukeyEdge alpha n then
    0.5 * (1 - Real.cos (2 * Real.pi * k / (alpha * (n - 1))))
  else if k > n - tukeyEdge alpha n - 1 then
    0.5 * (1 - Real.cos (2 * Real.pi * (n - k - 1) / (alpha * (n - 1))))
  else 1

/-- In-place windowing `apply_tukey(x, alpha)`: every sample is multiplied
by its `tukeyWeight`. -/
noncomputable def apply_tukey (x : List ℝ) (alpha : ℝ) : List ℝ :=
  (List.range x.length).map
    (fun i => x.getD i 0 * tukeyWeight alpha (x.length : ℝ) (i : ℝ))

/-! ## Engine data model (src/src/lib.rs lines 72-102) -/

/-- One grain: an owned windowed snippet `buf`, a read cursor `pos`, and an
assigned output channel `ch` (`struct Grain`). -/
structure Grain where
  buf : List ℚ
  pos : ℕ
  ch : ℕ
deriving DecidableEq

/-- Mirrors `Grain::done`: the cursor has reached the end of the buffer
(`self.pos >= self.buf.len()`). -/
def Grain.done (g : Grain) : Bool := decide (g.buf.length ≤ g.pos)

/-- Engine state (`struct Granular`): history ring, write cursor, active
grain list and sample rate.  The host-facing parameter objects are not
state here; their smoothed per-block values are inputs of `process`. -/
structure Granular where
  ring : List ℚ
  wr : ℕ
  grains : List Grain
  sr : ℚ
deriving DecidableEq

/-- Mirrors `Granular::default`: empty ring, cursor 0, no grains, `sr = 0`. -/
def granularDefault : Granular := { ring := [], wr := 0, grains := [], sr := 0 }

/-- Mirrors `Plugin::initialize`: store the sample rate and allocate the
zero-filled ring of `RING_SEC * sr` samples (cast `as usize`).  Note that
the source does not reset `wr` or `grains` here. -/
def initEngine (sr : ℚ) (st : Granular) : Granular :=
  { st with sr := sr, ring := List.replicate ((⌊RING_SEC * sr⌋).toNat) 0 }

/-- Mirrors `Plugin::reset`: zero the write cursor, clear the grains, and
zero-fill the ring in place (`self.ring.fill(0.0)` keeps its length). -/
def resetEngine (st : Granular) : Granular :=
  { st with wr := 0, grains := [], ring := List.replicate st.ring.length 0 }

/-! ## Per-block parameter values (src/src/lib.rs lines 161-167) -/

/-- The four smoothed parameter values read once per `process` call. -/
structure ParamVals where
  density : ℚ
  min_ms : ℚ
  max_ms : ℚ
  mix : ℚ

/-- Rust `f32::clamp(lo, hi)`. -/
def clampQ (x lo hi : ℚ) : ℚ := min (max x lo) hi

/-- Rust `q as usize` for a finite float: truncate toward zero, saturating
negative values to 0. -/
def asUsize (q : ℚ) : ℕ := (⌊q⌋).toNat

/-- The clamped per-block values computed at the top of `process`:
`min_len_ms = min_ms.max(1.0)`, `max_len_ms = max_ms.max(min_len_ms)`,
`mix = mix.clamp(0.0, 1.0)`, and `density` used directly. -/
structure ResolvedParams where
  density : ℚ
  min_len_ms : ℚ
  max_len_ms : ℚ
  mix : ℚ

/-- Resolve the raw smoothed values to the clamped values `process` uses. -/
def resolveParams (p : ParamVals) : ResolvedParams :=
  { density := p.density
  , min_len_ms := max p.min_ms 1
  , max_len_ms := max p.max_ms (max p.min_ms 1)
  , mix := clampQ p.mix 0 1 }

/-! ## Random number generator model -/

/-- The values produced by the (at most) four `rng` draws of one `process`
call, in source order: the trigger draw `rng.random::<f32>()`, then the
picks feeding `random_range` for length, start offset and channel. -/
structure Rng where
  trig : ℚ
  lenPick : ℕ
  startPick : ℕ
  chPick : ℕ

/-- `rng.random_range(lo..=hi)`: any value of the inclusive range can be
returned (chosen here by `pick`); an empty range (`lo > hi`) panics. -/
def randRangeIncl (lo hi pick : ℕ) : Option ℕ :=
  if lo ≤ hi then some (lo + pick % (hi - lo + 1)) else none

/-- `rng.random_range(0..n)`: any value of the half-open range can be
returned (chosen by `pick`); an empty range (`n = 0`) panics. -/
def randRangeExcl (n pick : ℕ) : Option ℕ :=
  if 0 < n then some (pick % n) else none

/-! ## Grain scheduler (src/src/lib.rs lines 169-185) -/

/-- One scheduler step: when the pool is not full and the trigger draw is
below `density`, and the ring is at least `max_len` long, extract a random
window of the ring, apply the window function `win`, and push a new grain
with cursor 0 and a random channel.  Otherwise the state is unchanged. -/
def trySpawn (win : List ℚ → List ℚ) (density : ℚ) (min_len max_len : ℕ)
    (rng : Rng) (n_ch : ℕ) (st : Granular) : Option Granular :=
  if st.grains.length < MAX_GRAINS ∧ rng.trig < density then
    if max_len ≤ st.ring.length then
      match randRangeIncl min_len max_len rng.lenPick with
      | none => none
      | some len =>
        match randRangeExcl (st.ring.length - len) rng.startPick with
        | none => none
        | some start =>
          let data := (List.range len).map
            (fun i => st.ring.getD ((start + i) % st.ring.length) 0)
          let buf := win data
          match randRangeExcl n_ch rng.chPick with
          | none => none
          | some ch =>
            some { st with grains := st.grains ++ [{ buf := buf, pos := 0, ch := ch }] }
    else some st
  else some st

/-! ## Per-frame mixing loop (src/src/lib.rs lines 188-221) -/

/-- Downmix accumulation `for ch in 0..n_ch { mono_input += frame[ch] }`;
`frame.get_mut(ch).unwrap()` panics when the channel does not exist. -/
def monoSum (frame : List ℚ) : List ℕ → ℚ → Option ℚ
  | [], acc => some acc
  | ch :: rest, acc =>
    match frame[ch]? with
    | some v => monoSum frame rest (acc + v)
    | none => none

/-- The mono value written to the ring for one frame: the plain sum of the
frame's first `n_ch` channel values. -/
def monoOf (n_ch : ℕ) (frame : List ℚ) : Option ℚ :=
  monoSum frame (List.range n_ch) 0

/-- Wet accumulation: each grain with a sample remaining adds it to
`mixes[g.ch % n_ch]`; the Rust `g.ch % n_ch` panics when `n_ch = 0`. -/
def accumGrains (n_ch : ℕ) : List Grain → List ℚ → Option (List ℚ)
  | [], mixes => some mixes
  | g :: rest, mixes =>
    match g.buf[g.pos]? with
    | some v =>
      if 0 < n_ch then
        accumGrains n_ch rest
          (mixes.set (g.ch % n_ch) (mixes.getD (g.ch % n_ch) 0 + v))
      else none
    | none => accumGrains n_ch rest mixes

/-- Dry/wet blend `out = dry * (1 - mix) + mixes[ch] * mix` written back to
each of the first `n_ch` channel slots of the frame. -/
def mixOut (n_ch : ℕ) (mix : ℚ) (mixes frame : List ℚ) : Option (List ℚ) :=
  if n_ch ≤ frame.length then
    some ((List.range n_ch).map
      (fun ch => frame.getD ch 0 * (1 - mix) + mixes.getD ch 0 * mix)
      ++ frame.drop n_ch)
  else none

/-- Cursor advance `if g.pos < g.buf.len() { g.pos += 1 }`. -/
def advanceGrain (g : Grain) : Grain :=
  if g.pos < g.buf.length then { g with pos := g.pos + 1 } else g

/-- One iteration of the frame loop: downmix, write to the ring at `wr`
(panics when `wr` is out of bounds, e.g. on an unallocated ring), wrap the
cursor, accumulate the wet signal, blend the output frame, and advance all
cursors. -/
def frameStep (n_ch : ℕ) (mix : ℚ) (st : Granular) (frame : List ℚ) :
    Option (Granular × List ℚ) :=
  match monoOf n_ch frame with
  | none => none
  | some mono =>
    if st.wr < st.ring.length then
      match accumGrains n_ch st.grains (List.replicate n_ch 0) with
      | none => none
      | some mixes =>
        match mixOut n_ch mix mixes frame with
        | none => none
        | some frame2 =>
          some ({ st with
                    ring := st.ring.set st.wr mono
                  , wr := (st.wr + 1) % st.ring.length
                  , grains := st.grains.map advanceGrain }, frame2)
    else none

/-- The frame loop of `process`, collecting the transformed frames. -/
def frameLoop (n_ch : ℕ) (mix : ℚ) :
    List (List ℚ) → Granular → List (List ℚ) → Option (Granular × List (List ℚ))
  | [], st, outs => some (st, outs)
  | frame :: rest, st, outs =>
    match frameStep n_ch mix st frame with
    | none => none
    | some p => frameLoop n_ch mix rest p.1 (outs ++ [p.2])

/-! ## Process (src/src/lib.rs lines 152-227) -/

/-- Host process status; the source only ever produces `Normal`
(`ProcessStatus::Normal`), never the error variant. -/
inductive ProcStatus where
  | Normal
  | Error
deriving DecidableEq

/-- One `Plugin::process` call: resolve parameters, run the scheduler,
run the frame loop, and retain the unfinished grains.  Returns the new
state, the transformed frames, and the returned status; `none` models a
Rust panic. -/
def process (win : List ℚ → List ℚ) (p : ParamVals) (rng : Rng) (n_ch : ℕ)
    (frames : List (List ℚ)) (st : Granular) :
    Option (Granular × List (List ℚ) × ProcStatus) :=
  let r := resolveParams p
  let min_len := asUsize (r.min_len_ms / 1000 * st.sr)
  let max_len := asUsize (r.max_len_ms / 1000 * st.sr)
  match trySpawn win r.density min_len max_len rng n_ch st with
  | none => none
  | some st1 =>
    match frameLoop n_ch r.mix frames st1 [] with
    | none => none
    | some p2 =>
      some ({ p2.1 with grains := p2.1.grains.filter (fun g => ! g.done) },
            p2.2, ProcStatus.Normal)

/-! ## Call sequences -/

/-- One host call on the engine. -/
inductive EngineOp where
  | init (sr : ℚ)
  | reset
  | proc (win : List ℚ → List ℚ) (p : ParamVals) (rng : Rng) (n_ch : ℕ)
      (frames : List (List ℚ))

/-- Apply a host call to a state (the output frames are discarded). -/
def applyOp (st : Granular) : EngineOp → Option Granular
  | EngineOp.init sr => some (initEngine sr st)
  | EngineOp.reset => some (resetEngine st)
  | EngineOp.proc win p rng n_ch frames =>
    Option.map Prod.fst (process win p rng n_ch frames st)

/-- Run a sequence of host calls; `none` models a panic somewhere. -/
def runOps : List EngineOp → Granular → Option Granular
  | [], st => some st
  | op :: rest, st =>
    match applyOp st op with
    | none => none
    | some st2 => runOps rest st2

/-! ## Specification-level wet accumulation

Modelled from the spec: the wet contribution of the active grains to one
output channel — every grain whose cursor still has a sample remaining
adds that sample to the accumulator of channel `g.ch % n_ch`. -/

/-- Wet sum that channel `ch` should receive from `grains` (spec wording:
"each active grain's current sample is added only to the wet accumulator
of its assigned channel"). -/
def wetSpec (n_ch : ℕ) (grains : List Grain) (ch : ℕ) : ℚ :=
  (grains.map (fun g =>
    if g.pos < g.buf.length ∧ g.ch % n_ch = ch then g.buf.getD g.pos 0 else 0)).sum

/-! ## List helper lemmas -/

lemma getD_set_self (l : List ℚ) (i : ℕ) (a : ℚ) (h : i < l.length) :
    (l.set i a).getD i 0 = a := by
  simp [List.getD_eq_getElem?_getD, List.getElem?_set_self, h]

lemma getD_set_ne (l : List ℚ) (i j : ℕ) (a : ℚ) (h : i ≠ j) :
    (l.set i a).getD j 0 = l.getD j 0 := by
  simp [List.getD_eq_getElem?_getD, List.getElem?_set_ne h]

lemma getD_replicate_zero (n ch : ℕ) : (List.replicate n (0:ℚ)).getD ch 0 = 0 := by
  simp only [List.getD_eq_getElem?_getD, List.getElem?_replicate]
  split <;> rfl

/-! ## Downmix lemmas -/

lemma monoSum_append (frame : List ℚ) (is js : List ℕ) (acc : ℚ) :
    monoSum frame (is ++ js) acc =
      (monoSum frame is acc).bind (fun a => monoSum frame js a) := by
  induction is generalizing acc with
  | nil => simp [monoSum]
  | cons ch rest ih =>
    simp only [List.cons_append, monoSum]
    cases frame[ch]? with
    | none => simp
    | some v => simp [ih]

lemma monoSum_range (frame : List ℚ) (n : ℕ) (acc : ℚ) (h : n ≤ frame.length) :
    monoSum frame (List.range n) acc = some (acc + (frame.take n).sum) := by
  induction n generalizing acc with
  | zero => simp [monoSum]
  | succ n ih =>
    have hn : n < frame.length := h
    rw [List.range_succ, monoSum_append, ih _ (Nat.le_of_lt hn)]
    simp [monoSum, List.getElem?_eq_getElem hn, List.sum_take_succ _ _ hn, add_assoc]

/-- The downmix of a full frame is the plain sum of its channel values. -/
lemma monoOf_eq_sum (n_ch : ℕ) (frame : List ℚ) (h : frame.length = n_ch) :
    monoOf n_ch frame = some frame.sum := by
  subst h
  rw [monoOf, monoSum_range frame frame.length 0 (Nat.le_refl _)]
  simp

/-! ## Wet accumulation lemmas -/

lemma wetSpec_nil (n_ch ch : ℕ) : wetSpec n_ch [] ch = 0 := rfl

lemma wetSpec_cons (n_ch ch : ℕ) (g : Grain) (gs : List Grain) :
    wetSpec n_ch (g :: gs) ch =
      (if g.pos < g.buf.length ∧ g.ch % n_ch = ch then g.buf.getD g.pos 0 else 0)
        + wetSpec n_ch gs ch := by
  simp [wetSpec]

lemma accumGrains_total (n_ch : ℕ) (gs : List Grain) (mixes : List ℚ)
    (h0 : 0 < n_ch) : ∃ res, accumGrains n_ch gs mixes = some res := by
  induction gs generalizing mixes with
  | nil => exact ⟨mixes, rfl⟩
  | cons g rest ih =>
    simp only [accumGrains]
    cases g.buf[g.pos]? with
    | none => exact ih mixes
    | some v => simpa [h0] using ih _

lemma accumGrains_length (n_ch : ℕ) (gs : List Grain) (mixes res : List ℚ)
    (h : accumGrains n_ch gs mixes = some res) : res.length = mixes.length := by
  induction gs generalizing mixes with
  | nil =>
    simp only [accumGrains] at h
    cases h
    rfl
  | cons g rest ih =>
    cases hb : g.buf[g.pos]? with
    | none =>
      simp only [accumGrains, hb] at h
      exact ih _ h
    | some v =>
      simp only [accumGrains, hb] at h
      by_cases h0 : 0 < n_ch
      · rw [if_pos h0] at h
        rw [ih _ h, List.length_set]
      · rw [if_neg h0] at h
        cases h

lemma accumGrains_getD (n_ch : ℕ) (gs : List Grain) (mixes res : List ℚ)
    (hlen : mixes.length = n_ch)
    (h : accumGrains n_ch gs mixes = some res) :
    ∀ ch, ch < n_ch → res.getD ch 0 = mixes.getD ch 0 + wetSpec n_ch gs ch := by
  induction gs generalizing mixes with
  | nil =>
    simp only [accumGrains] at h
    cases h
    intro ch _
    simp [wetSpec_nil]
  | cons g rest ih =>
    intro ch hch
    cases hb : g.buf[g.pos]? with
    | none =>
      simp only [accumGrains, hb] at h
      have hdone : ¬ g.pos < g.buf.length := by
        have := List.getElem?_eq_none_iff.mp hb
        omega
      rw [ih mixes hlen h ch hch, wetSpec_cons, if_neg]
      · ring
      · intro hc
        exact hdone hc.1
    | some v =>
      simp only [accumGrains, hb] at h
      have h0 : 0 < n_ch := Nat.lt_of_le_of_lt (Nat.zero_le ch) hch
      rw [if_pos h0] at h
      have hidx : g.ch % n_ch < mixes.length := by
        rw [hlen]
        exact Nat.mod_lt _ h0
      have hlen2 : (mixes.set (g.ch % n_ch) (mixes.getD (g.ch % n_ch) 0 + v)).length = n_ch := by
        rw [List.length_set, hlen]
      have hpos : g.pos < g.buf.length := (List.getElem?_eq_some.mp hb).1
      have hv : g.buf.getD g.pos 0 = v := by
        simp [List.getD_eq_getElem?_getD, hb]
      rw [ih _ hlen2 h ch hch, wetSpec_cons]
      by_cases hc : g.ch % n_ch = ch
      · subst hc
        rw [getD_set_self _ _ _ hidx, if_pos ⟨hpos, rfl⟩, hv]
        ring
      · rw [getD_set_ne _ _ _ _ hc, if_neg]
        · ring
        · intro hcc
          exact hc hcc.2

/-! ## Output blend lemma -/

lemma mixOut_getD (n_ch : ℕ) (mix : ℚ) (mixes frame out : List ℚ)
    (h : mixOut n_ch mix mixes frame = some out) :
    ∀ ch, ch < n_ch →
      out.getD ch 0 = frame.getD ch 0 * (1 - mix) + mixes.getD ch 0 * mix := by
  intro ch hch
  simp only [mixOut] at h
  by_cases hl : n_ch ≤ frame.length
  · rw [if_pos hl] at h
    cases h
    have hmap : ch < ((List.range n_ch).map
        (fun ch => frame.getD ch 0 * (1 - mix) + mixes.getD ch 0 * mix)).length := by
      simpa using hch
    simp [List.getD_eq_getElem?_getD, List.getElem?_append, hmap,
      List.getElem?_map, List.getElem?_range hch, hch]
  · rw [if_neg hl] at h
    cases h

/-! ## Frame step and frame loop lemmas -/

lemma advanceGrain_pos_le (g : Grain) (h : g.pos ≤ g.buf.length) :
    (advanceGrain g).pos ≤ (advanceGrain g).buf.length := by
  rw [advanceGrain]
  split <;> simp_all
  omega

lemma frameStep_some (n_ch : ℕ) (mix : ℚ) (st : Granular) (frame : List ℚ)
    (r : Granular × List ℚ) (h : frameStep n_ch mix st frame = some r) :
    ∃ mono mixes,
      monoOf n_ch frame = some mono ∧
      st.wr < st.ring.length ∧
      accumGrains n_ch st.grains (List.replicate n_ch 0) = some mixes ∧
      mixOut n_ch mix mixes frame = some r.2 ∧
      r.1 = { st with
                ring := st.ring.set st.wr mono
              , wr := (st.wr + 1) % st.ring.length
              , grains := st.grains.map advanceGrain } := by
  unfold frameStep at h
  cases hm : monoOf n_ch frame with
  | none => simp only [hm] at h; cases h
  | some mono =>
    simp only [hm] at h
    by_cases hw : st.wr < st.ring.length
    · rw [if_pos hw] at h
      cases ha : accumGrains n_ch st.grains (List.replicate n_ch 0) with
      | none => simp only [ha] at h; cases h
      | some mixes =>
        simp only [ha] at h
        cases ho : mixOut n_ch mix mixes frame with
        | none => simp only [ho] at h; cases h
        | some frame2 =>
          simp only [ho] at h
          cases h
          exact ⟨mono, mixes, rfl, hw, rfl, ho, rfl⟩
    · rw [if_neg hw] at h
      cases h

lemma frameLoop_grains_length (n_ch : ℕ) (mix : ℚ) (frames : List (List ℚ))
    (st : Granular) (outs : List (List ℚ)) (r : Granular × List (List ℚ))
    (h : frameLoop n_ch mix frames st outs = some r) :
    r.1.grains.length = st.grains.length := by
  induction frames generalizing st outs with
  | nil =>
    simp only [frameLoop] at h
    cases h
    rfl
  | cons frame rest ih =>
    simp only [frameLoop] at h
    cases hs : frameStep n_ch mix st frame with
    | none => simp only [hs] at h; cases h
    | some p =>
      simp only [hs] at h
      obtain ⟨mono, mixes, -, -, -, -, hst⟩ := frameStep_some _ _ _ _ _ hs
      rw [ih _ _ h, hst]
      exact List.length_map _ _

lemma frameLoop_pos_le (n_ch : ℕ) (mix : ℚ) (frames : List (List ℚ))
    (st : Granular) (outs : List (List ℚ)) (r : Granular × List (List ℚ))
    (h : frameLoop n_ch mix frames st outs = some r)
    (hinv : ∀ g ∈ st.grains, g.pos ≤ g.buf.length) :
    ∀ g ∈ r.1.grains, g.pos ≤ g.buf.length := by
  induction frames generalizing st outs with
  | nil =>
    simp only [frameLoop] at h
    cases h
    exact hinv
  | cons frame rest ih =>
    simp only [frameLoop] at h
    cases hs : frameStep n_ch mix st frame with
    | none => simp only [hs] at h; cases h
    | some p =>
      simp only [hs] at h
      obtain ⟨mono, mixes, -, -, -, -, hst⟩ := frameStep_some _ _ _ _ _ hs
      refine ih _ _ h ?_
      rw [hst]
      intro g hg
      simp only [List.mem_map] at hg
      obtain ⟨g0, hg0, rfl⟩ := hg
      exact advanceGrain_pos_le g0 (hinv g0 hg0)

/-! ## Scheduler lemmas -/

lemma trySpawn_skip_short (win : List ℚ → List ℚ) (density : ℚ)
    (min_len max_len : ℕ) (rng : Rng) (n_ch : ℕ) (st : Granular)
    (h : st.ring.length < max_len) :
    trySpawn win density min_len max_len rng n_ch st = some st := by
  unfold trySpawn
  split
  · rw [if_neg (by omega)]
  · rfl

lemma trySpawn_grains_bound (win : List ℚ → List ℚ) (density : ℚ)
    (min_len max_len : ℕ) (rng : Rng) (n_ch : ℕ) (st st2 : Granular)
    (h : trySpawn win density min_len max_len rng n_ch st = some st2)
    (hb : st.grains.length ≤ MAX_GRAINS) : st2.grains.length ≤ MAX_GRAINS := by
  unfold trySpawn at h
  split at h
  · rename_i hcond
    split at h
    · split at h
      · cases h
      · split at h
        · cases h
        · split at h
          · cases h
          · cases h
            simp only [List.length_append, List.length_cons, List.length_nil]
            omega
    · cases h
      exact hb
  · cases h
    exact hb

lemma trySpawn_pos_le (win : List ℚ → List ℚ) (density : ℚ)
    (min_len max_len : ℕ) (rng : Rng) (n_ch : ℕ) (st st2 : Granular)
    (h : trySpawn win density min_len max_len rng n_ch st = some st2)
    (hinv : ∀ g ∈ st.grains, g.pos ≤ g.buf.length) :
    ∀ g ∈ st2.grains, g.pos ≤ g.buf.length := by
  unfold trySpawn at h
  split at h
  · split at h
    · split at h
      · cases h
      · split at h
        · cases h
        · split at h
          · cases h
          · cases h
            intro g hg
            simp only [List.mem_append, List.mem_singleton] at hg
            cases hg with
            | inl hg => exact hinv g hg
            | inr hg => subst hg; exact Nat.zero_le _
    · cases h
      exact hinv
  · cases h
    exact hinv

/-! ## Process inversion -/

lemma process_some (win : List ℚ → List ℚ) (p : ParamVals) (rng : Rng)
    (n_ch : ℕ) (frames : List (List ℚ)) (st : Granular)
    (r : Granular × List (List ℚ) × ProcStatus)
    (h : process win p rng n_ch frames st = some r) :
    ∃ st1 st2 outs,
      trySpawn win (resolveParams p).density
        (asUsize ((resolveParams p).min_len_ms / 1000 * st.sr))
        (asUsize ((resolveParams p).max_len_ms / 1000 * st.sr))
        rng n_ch st = some st1 ∧
      frameLoop n_ch (resolveParams p).mix frames st1 [] = some (st2, outs) ∧
      r = ({ st2 with grains := st2.grains.filter (fun g => ! g.done) },
           outs, ProcStatus.Normal) := by
  simp only [process] at h
  cases hs : trySpawn win (resolveParams p).density
      (asUsize ((resolveParams p).min_len_ms / 1000 * st.sr))
      (asUsize ((resolveParams p).max_len_ms / 1000 * st.sr)) rng n_ch st with
  | none => simp only [hs] at h; cases h
  | some st1 =>
    simp only [hs] at h
    cases hl : frameLoop n_ch (resolveParams p).mix frames st1 [] with
    | none => simp only [hl] at h; cases h
    | some p2 =>
      simp only [hl] at h
      cases h
      exact ⟨st1, p2.1, p2.2, rfl, hl, rfl⟩

/-! ## Tukey window theorems (claims C1 and C9) -/

/-- C9: for `alpha = 0` the function `apply_tukey` is the identity — the
buffer after `apply_tukey(buffer, 0)` equals the buffer before the call,
for every buffer length and contents (rectangular window). -/
theorem apply_tukey_alpha_zero_id (x : List ℝ) : apply_tukey x 0 = x := by
  apply List.ext_getElem
  · simp [apply_tukey]
  · intro i h1 h2
    have hi : i < x.length := h2
    have hedge : tukeyEdge 0 (x.length : ℝ) = 0 := by
      simp [tukeyEdge]
    have hcast : (i : ℝ) + 1 ≤ (x.length : ℝ) := by exact_mod_cast hi
    simp only [apply_tukey, List.getElem_map, List.getElem_range]
    rw [tukeyWeight, hedge]
    rw [if_neg (not_lt.mpr (Nat.cast_nonneg i)), if_neg (by simp only [not_lt]; linarith)]
    rw [mul_one, List.getD_eq_getElem x 0 hi]

/-- C1 counterexample: the claim asserts that for every buffer length
`n > 1` and every `alpha ∈ (0,1]` (in particular `TUKEY_ALPHA = 0.2`) the
endpoint weights are exactly zero.  For `alpha = 1/5` (the exact value
`0.2`) and the two-sample buffer `[1, 1]` the taper width floors to zero,
the endpoint weight is `1`, and `apply_tukey` leaves the buffer unchanged:
the endpoints are not multiplied by zero. -/
theorem tukey_endpoints_alpha_fifth_n2_cex :
    tukeyWeight (1/5) 2 0 = 1 ∧ apply_tukey [1, 1] (1/5) = [1, 1] ∧
      (0 < (1/5 : ℝ) ∧ (1/5 : ℝ) ≤ 1) ∧ TUKEY_ALPHA = 1/5 := by
  have hedge : tukeyEdge (1/5) 2 = 0 := by
    have hf : ⌊(1/5 : ℝ) * (2 - 1) * 0.5⌋ = 0 := by
      rw [Int.floor_eq_zero_iff, Set.mem_Ico]
      constructor <;> norm_num
    rw [tukeyEdge, hf, Int.cast_zero]
  refine ⟨?_, ?_, by norm_num, by rw [TUKEY_ALPHA]; norm_num⟩
  · rw [tukeyWeight, hedge]
    norm_num
  · have hw0 : tukeyWeight (1/5) 2 0 = 1 := by
      rw [tukeyWeight, hedge]
      norm_num
    have hw1 : tukeyWeight (1/5) 2 1 = 1 := by
      rw [tukeyWeight, hedge]
      norm_num
    have hr : List.range 2 = [0, 1] := rfl
    simp only [apply_tukey, List.length_cons, List.length_nil, hr, List.map_cons,
      List.map_nil, List.getD]
    norm_num [hw0, hw1]

/-- C1 amended: the endpoint weights of `apply_tukey` are exactly zero
precisely when the floored taper width `edge = floor(alpha*(n-1)*0.5)` is
at least 1 (equivalently `alpha*(n-1) ≥ 2`; for `TUKEY_ALPHA = 0.2` this
needs `n ≥ 11`), not for every `n > 1`.  Under that hypothesis both
endpoint weights, and both endpoint samples of the windowed buffer, are
zero. -/
theorem tukey_endpoints_zero_when_edge_pos (x : List ℝ) (alpha : ℝ)
    (h1 : 0 < alpha) (h2 : alpha ≤ 1)
    (h3 : 1 ≤ ⌊alpha * ((x.length : ℝ) - 1) * 0.5⌋) :
    tukeyWeight alpha (x.length : ℝ) 0 = 0 ∧
    tukeyWeight alpha (x.length : ℝ) ((x.length : ℝ) - 1) = 0 ∧
    (apply_tukey x alpha).getD 0 0 = 0 ∧
    (apply_tukey x alpha).getD (x.length - 1) 0 = 0 := by
  have hE : (1 : ℝ) ≤ tukeyEdge alpha (x.length : ℝ) := by
    rw [tukeyEdge]
    exact_mod_cast h3
  have hge : (1 : ℝ) ≤ alpha * ((x.length : ℝ) - 1) * 0.5 := by
    have := Int.le_floor.mp h3
    exact_mod_cast this
  have h2' : 2 ≤ alpha * ((x.length : ℝ) - 1) := by nlinarith
  have hpos : (0 : ℝ) < (x.length : ℝ) - 1 := by
    by_contra hc
    push_neg at hc
    have : alpha * ((x.length : ℝ) - 1) ≤ 0 :=
      mul_nonpos_iff.mpr (Or.inl ⟨h1.le, hc⟩)
    linarith
  have hn2 : 2 ≤ (x.length : ℝ) - 1 := by
    nlinarith [mul_nonneg (sub_nonneg.mpr h2) hpos.le]
  have hEub : tukeyEdge alpha (x.length : ℝ) ≤ alpha * ((x.length : ℝ) - 1) * 0.5 := by
    rw [tukeyEdge]
    exact Int.floor_le _
  have hEn : tukeyEdge alpha (x.length : ℝ) ≤ (x.length : ℝ) - 1 := by
    nlinarith [mul_nonneg (sub_nonneg.mpr h2) hpos.le]
  have w0 : tukeyWeight alpha (x.length : ℝ) 0 = 0 := by
    rw [tukeyWeight, if_pos (by linarith : (0:ℝ) < tukeyEdge alpha (x.length : ℝ))]
    norm_num
  have wlast : tukeyWeight alpha (x.length : ℝ) ((x.length : ℝ) - 1) = 0 := by
    rw [tukeyWeight, if_neg (not_lt.mpr hEn),
      if_pos (by simp only [gt_iff_lt]; linarith)]
    have hzero : (x.length : ℝ) - ((x.length : ℝ) - 1) - 1 = 0 := by ring
    rw [hzero]
    norm_num
  have hlen3 : 3 ≤ x.length := by
    have : (3 : ℝ) ≤ (x.length : ℝ) := by linarith
    exact_mod_cast this
  have hL : (apply_tukey x alpha).length = x.length := by simp [apply_tukey]
  refine ⟨w0, wlast, ?_, ?_⟩
  · have h0lt : 0 < (apply_tukey x alpha).length := by omega
    rw [List.getD_eq_getElem _ _ h0lt]
    simp only [apply_tukey, List.getElem_map, List.getElem_range, Nat.cast_zero]
    rw [w0, mul_zero]
  · have hjlt : x.length - 1 < (apply_tukey x alpha).length := by omega
    rw [List.getD_eq_getElem _ _ hjlt]
    simp only [apply_tukey, List.getElem_map, List.getElem_range]
    have hc : ((x.length - 1 : ℕ) : ℝ) = (x.length : ℝ) - 1 := by
      rw [Nat.cast_sub (by omega), Nat.cast_one]
    rw [hc, wlast, mul_zero]

/-- Witness for the amended C1 theorem: a ten-sample buffer of ones with
`alpha = 1/2` (the repository's own test case) has both endpoint weights
and both endpoint output samples exactly zero. -/
theorem tukey_endpoints_zero_when_edge_pos_witness :
    tukeyWeight (1/2) ((List.replicate 10 (1:ℝ)).length : ℝ) 0 = 0 ∧
    tukeyWeight (1/2) ((List.replicate 10 (1:ℝ)).length : ℝ)
      (((List.replicate 10 (1:ℝ)).length : ℝ) - 1) = 0 ∧
    (apply_tukey (List.replicate 10 (1:ℝ)) (1/2)).getD 0 0 = 0 ∧
    (apply_tukey (List.replicate 10 (1:ℝ)) (1/2)).getD
      ((List.replicate 10 (1:ℝ)).length - 1) 0 = 0 :=
  tukey_endpoints_zero_when_edge_pos (List.replicate 10 1) (1/2)
    (by norm_num) (by norm_num)
    (by rw [List.length_replicate]
        exact Int.le_floor.mpr (by norm_num))

/-! ## Preservation helpers for process and call sequences -/

lemma process_grains_bound (win : List ℚ → List ℚ) (p : ParamVals) (rng : Rng)
    (n_ch : ℕ) (frames : List (List ℚ)) (st : Granular)
    (r : Granular × List (List ℚ) × ProcStatus)
    (h : process win p rng n_ch frames st = some r)
    (hb : st.grains.length ≤ MAX_GRAINS) : r.1.grains.length ≤ MAX_GRAINS := by
  obtain ⟨st1, st2, outs, hs, hl, hr⟩ := process_some _ _ _ _ _ _ _ h
  have h1 : st1.grains.length ≤ MAX_GRAINS := trySpawn_grains_bound _ _ _ _ _ _ _ _ hs hb
  have h2 : st2.grains.length = st1.grains.length := frameLoop_grains_length _ _ _ _ _ _ hl
  rw [hr]
  calc (st2.grains.filter (fun g => ! g.done)).length
      ≤ st2.grains.length := List.length_filter_le _ _
    _ ≤ MAX_GRAINS := by omega

lemma process_pos_le (win : List ℚ → List ℚ) (p : ParamVals) (rng : Rng)
    (n_ch : ℕ) (frames : List (List ℚ)) (st : Granular)
    (r : Granular × List (List ℚ) × ProcStatus)
    (h : process win p rng n_ch frames st = some r)
    (hinv : ∀ g ∈ st.grains, g.pos ≤ g.buf.length) :
    ∀ g ∈ r.1.grains, g.pos ≤ g.buf.length := by
  obtain ⟨st1, st2, outs, hs, hl, hr⟩ := process_some _ _ _ _ _ _ _ h
  have h1 := trySpawn_pos_le _ _ _ _ _ _ _ _ hs hinv
  have h2 := frameLoop_pos_le _ _ _ _ _ _ hl h1
  rw [hr]
  intro g hg
  exact h2 g (List.mem_of_mem_filter hg)

lemma runOps_grains_bound (ops : List EngineOp) (st0 st1 : Granular)
    (h : runOps ops st0 = some st1)
    (hb : st0.grains.length ≤ MAX_GRAINS) : st1.grains.length ≤ MAX_GRAINS := by
  induction ops generalizing st0 with
  | nil =>
    simp only [runOps] at h
    cases h
    exact hb
  | cons op rest ih =>
    simp only [runOps] at h
    cases ha : applyOp st0 op with
    | none => simp only [ha] at h; cases h
    | some st2 =>
      simp only [ha] at h
      refine ih _ h ?_
      cases op with
      | init sr =>
        simp only [applyOp] at ha
        cases ha
        exact hb
      | reset =>
        simp only [applyOp] at ha
        cases ha
        simp [resetEngine]
      | proc win p rng n_ch frames =>
        simp only [applyOp] at ha
        cases hp : process win p rng n_ch frames st0 with
        | none => rw [hp] at ha; cases ha
        | some r =>
          rw [hp] at ha
          simp only [Option.map_some'] at ha
          cases ha
          exact process_grains_bound _ _ _ _ _ _ _ hp hb

lemma runOps_pos_le (ops : List EngineOp) (st0 st1 : Granular)
    (h : runOps ops st0 = some st1)
    (hinv : ∀ g ∈ st0.grains, g.pos ≤ g.buf.length) :
    ∀ g ∈ st1.grains, g.pos ≤ g.buf.length := by
  induction ops generalizing st0 with
  | nil =>
    simp only [runOps] at h
    cases h
    exact hinv
  | cons op rest ih =>
    simp only [runOps] at h
    cases ha : applyOp st0 op with
    | none => simp only [ha] at h; cases h
    | some st2 =>
      simp only [ha] at h
      refine ih _ h ?_
      cases op with
      | init sr =>
        simp only [applyOp] at ha
        cases ha
        exact hinv
      | reset =>
        simp only [applyOp] at ha
        cases ha
        simp [resetEngine]
      | proc win p rng n_ch frames =>
        simp only [applyOp] at ha
        cases hp : process win p rng n_ch frames st0 with
        | none => rw [hp] at ha; cases ha
        | some r =>
          rw [hp] at ha
          simp only [Option.map_some'] at ha
          cases ha
          exact process_pos_le _ _ _ _ _ _ _ hp hinv

/-! ## Claim C2: the grain pool never exceeds MAX_GRAINS -/

/-- C2: starting from the default (empty) engine, after any sequence of
process, initialize and reset calls — with any density and any random
draws — the active grain count never exceeds `MAX_GRAINS = 25`: the
scheduler skips triggering when the pool is full and each block adds at
most one grain. -/
theorem grain_count_le_max (ops : List EngineOp) (st : Granular)
    (h : runOps ops granularDefault = some st) :
    st.grains.length ≤ MAX_GRAINS :=
  runOps_grains_bound ops granularDefault st h (by decide)

/-- Witness for C2: an initialize call followed by a process call that
spawns (density 1, trigger draw 0) and processes one silent mono frame
ends in a concrete state with at most `MAX_GRAINS` grains. -/
theorem grain_count_le_max_witness :
    ({ ring := List.replicate 5 0, wr := 1, grains := [], sr := 1 } :
      Granular).grains.length ≤ MAX_GRAINS :=
  grain_count_le_max
    [EngineOp.init 1,
     EngineOp.proc id { density := 1, min_ms := 1, max_ms := 1, mix := 1 }
       { trig := 0, lenPick := 0, startPick := 0, chPick := 0 } 1 [[0]]]
    { ring := List.replicate 5 0, wr := 1, grains := [], sr := 1 }
    (by with_unfolding_all decide)

/-! ## Claim C3: what the scheduler's skip guard actually checks -/

/-- C3 counterexample: the claim says spawning is skipped while fewer than
`max_len` valid samples have been written since initialization.  On a
freshly initialized engine (sample rate 1, capacity 5, write cursor 0,
zero frames ever processed) a process call with density 1 and
`max_len = 1 > 0` written samples nevertheless spawns a grain: the guard
compares `max_len` only against the fixed ring capacity, which is
allocated (zero-filled) in full at initialization. -/
theorem spawn_without_history_cex :
    (process id { density := 1, min_ms := 1000, max_ms := 1000, mix := 1 }
      { trig := 0, lenPick := 0, startPick := 0, chPick := 0 } 1 []
      (initEngine 1 granularDefault)).map
      (fun r => r.1.grains.length) = some 1 := by
  with_unfolding_all decide

/-- C3 amended: the skip guard is capacity-based, not accumulation-based.
The scheduler leaves the state unchanged exactly when the ring capacity is
below `max_len`; it never skips because history is missing (freshly
initialized zeros are read as silence), and `max_len = 0` does not cause a
skip — on a capacity-5 ring it spawns an empty grain instead. -/
theorem spawn_skip_guard_is_capacity :
    (∀ (win : List ℚ → List ℚ) (density : ℚ) (min_len max_len : ℕ)
       (rng : Rng) (n_ch : ℕ) (st : Granular), st.ring.length < max_len →
       trySpawn win density min_len max_len rng n_ch st = some st) ∧
    (trySpawn id 1 0 0 { trig := 0, lenPick := 0, startPick := 0, chPick := 0 }
        1 (initEngine 1 granularDefault)).map (fun s => s.grains.length) = some 1 := by
  constructor
  · intro win density min_len max_len rng n_ch st h
    exact trySpawn_skip_short _ _ _ _ _ _ _ h
  · with_unfolding_all decide

/-- Witness for the amended C3 theorem: on the default engine (empty ring)
a `max_len` of 1 exceeds the capacity 0, so the scheduler skips and
returns the state unchanged. -/
theorem spawn_skip_guard_is_capacity_witness :
    trySpawn id 1 0 1 { trig := 0, lenPick := 0, startPick := 0, chPick := 0 }
      1 granularDefault = some granularDefault :=
  spawn_skip_guard_is_capacity.1 id 1 0 1
    { trig := 0, lenPick := 0, startPick := 0, chPick := 0 } 1 granularDefault
    (by decide)

/-! ## Claim C5: behaviour on host misuse -/

/-- C5 counterexample: the claim says a `process` call before `initialize`
is signaled as an explicit precondition failure (a failure status).  On
the uninitialized default engine (empty ring, `sr = 0`), processing one
mono frame does not return any status at all: the frame loop indexes the
empty ring and the call panics (modelled as `none`), so no failure status
is produced. -/
theorem process_uninitialized_panics_cex :
    process id { density := 1/5, min_ms := 20, max_ms := 500, mix := 1 }
      { trig := 1/2, lenPick := 0, startPick := 0, chPick := 0 }
      1 [[0]] granularDefault = none := by
  with_unfolding_all decide

/-- C5 amended: the source contains no precondition check and no failure
path: every `process` call that completes returns `ProcessStatus::Normal`;
host misuse (process before initialize, or a spawn attempt with zero
channels) instead panics — modelled as `none`, as the companion
counterexample shows — rather than returning a failure status. -/
theorem process_status_always_normal (win : List ℚ → List ℚ) (p : ParamVals)
    (rng : Rng) (n_ch : ℕ) (frames : List (List ℚ)) (st : Granular)
    (r : Granular × List (List ℚ) × ProcStatus)
    (h : process win p rng n_ch frames st = some r) :
    r.2.2 = ProcStatus.Normal := by
  obtain ⟨st1, st2, outs, -, -, hr⟩ := process_some _ _ _ _ _ _ _ h
  rw [hr]

/-- Witness for the amended C5 theorem: a completing call on a capacity-2
engine returns the `Normal` status. -/
theorem process_status_always_normal_witness :
    (({ ring := [1, 0], wr := 1, grains := [], sr := 0 } : Granular),
      ([[1]] : List (List ℚ)), ProcStatus.Normal).2.2 = ProcStatus.Normal :=
  process_status_always_normal id
    { density := 0, min_ms := 1, max_ms := 1, mix := 0 }
    { trig := 1, lenPick := 0, startPick := 0, chPick := 0 } 1 [[1]]
    { ring := [0, 0], wr := 0, grains := [], sr := 0 }
    ({ ring := [1, 0], wr := 1, grains := [], sr := 0 }, [[1]], ProcStatus.Normal)
    (by with_unfolding_all decide)

/-! ## Claim C6: the ring receives the plain channel sum -/

/-- C6: for every processed frame, the mono value written into the history
ring buffer at the write cursor is the plain sum of all channel input
values of that frame — the sum variant, not the average. -/
theorem ring_write_is_channel_sum (n_ch : ℕ) (mix : ℚ) (st : Granular)
    (frame : List ℚ) (r : Granular × List ℚ)
    (hlen : frame.length = n_ch)
    (h : frameStep n_ch mix st frame = some r) :
    r.1.ring.getD st.wr 0 = frame.sum := by
  obtain ⟨mono, mixes, hm, hw, -, -, hst⟩ := frameStep_some _ _ _ _ _ h
  rw [monoOf_eq_sum _ _ hlen] at hm
  cases hm
  rw [hst]
  exact getD_set_self _ _ _ hw

/-- Witness for C6: a stereo frame `[1, 2]` writes `3` into the ring slot
under the write cursor. -/
theorem ring_write_is_channel_sum_witness :
    ([3, (0:ℚ)]).getD 0 0 = ([1, (2:ℚ)]).sum :=
  ring_write_is_channel_sum 2 0 { ring := [0, 0], wr := 0, grains := [], sr := 0 }
    [1, 2] ({ ring := [3, 0], wr := 1, grains := [], sr := 0 }, [1, 2])
    (by decide) (by with_unfolding_all decide)

/-! ## Claim C7: grain cursor bounds and removal of done grains -/

/-- C7: grain cursors are always within bounds: `done` holds exactly when
the cursor has reached the buffer length; after every completed `process`
call every done grain has been removed (all surviving grains satisfy
`pos < len(buf)`); and in every state reachable from the default engine by
initialize, reset and process calls, every grain satisfies
`0 ≤ pos ≤ len(buf)`. -/
theorem grain_cursor_invariant :
    (∀ g : Grain, g.done = true ↔ g.buf.length ≤ g.pos) ∧
    (∀ (win : List ℚ → List ℚ) (p : ParamVals) (rng : Rng) (n_ch : ℕ)
       (frames : List (List ℚ)) (st : Granular)
       (r : Granular × List (List ℚ) × ProcStatus),
       process win p rng n_ch frames st = some r →
       ∀ g ∈ r.1.grains, g.pos < g.buf.length) ∧
    (∀ (ops : List EngineOp) (st : Granular),
       runOps ops granularDefault = some st →
       ∀ g ∈ st.grains, g.pos ≤ g.buf.length) := by
  refine ⟨?_, ?_, ?_⟩
  · intro g
    simp [Grain.done]
  · intro win p rng n_ch frames st r h g hg
    obtain ⟨st1, st2, outs, -, -, hr⟩ := process_some _ _ _ _ _ _ _ h
    rw [hr] at hg
    have := List.of_mem_filter hg
    simp only [Bool.not_eq_true', Grain.done, decide_eq_false_iff_not, not_le] at this
    exact this
  · intro ops st h
    exact runOps_pos_le ops granularDefault st h (by simp [granularDefault])

/-- Witness for C7: a reachable state holding one live grain (spawned from
a freshly initialized silent ring) has its cursor within bounds. -/
theorem grain_cursor_invariant_witness :
    (Grain.mk [(0:ℚ)] 0 0).pos ≤ (Grain.mk [(0:ℚ)] 0 0).buf.length :=
  grain_cursor_invariant.2.2
    [EngineOp.init 1,
     EngineOp.proc id { density := 1, min_ms := 1000, max_ms := 1000, mix := 1 }
       { trig := 0, lenPick := 0, startPick := 0, chPick := 0 } 1 []]
    { ring := List.replicate 5 0, wr := 0, grains := [Grain.mk [0] 0 0], sr := 1 }
    (by with_unfolding_all decide)
    (Grain.mk [0] 0 0) (by simp)

/-! ## Claim C8: per-block parameter clamping -/

/-- C8: in every `process` call the per-block values are clamped rather
than rejected: the resolved minimum length is at least 1 ms, the resolved
maximum length is forced to be at least the minimum (even for inverted
targets), the mix used lies in `[0, 1]`, and density is passed through
unchanged, used directly as a probability. -/
theorem process_params_clamped (p : ParamVals) :
    1 ≤ (resolveParams p).min_len_ms ∧
    (resolveParams p).min_len_ms ≤ (resolveParams p).max_len_ms ∧
    0 ≤ (resolveParams p).mix ∧ (resolveParams p).mix ≤ 1 ∧
    (resolveParams p).density = p.density := by
  refine ⟨le_max_right _ _, le_max_right _ _, ?_, ?_, rfl⟩
  · show (0 : ℚ) ≤ clampQ p.mix 0 1
    rw [clampQ]
    exact le_min (le_max_right _ _) zero_le_one
  · show clampQ p.mix 0 1 ≤ 1
    rw [clampQ]
    exact min_le_right _ _

/-! ## Claim C4: dry/wet blend with per-grain channel routing -/

/-- C4: for every frame and channel, the output sample equals
`dry * (1 - mix) + wet * mix`, where the wet accumulator of a channel
receives exactly the current samples of the active grains routed to it
(`wetSpec`, the spec-level per-channel sum); and concretely, a grain
holding `[1]` on channel 0 together with a grain holding `[1/2]` on
channel 1, with `mix = 1`, turn one silent stereo frame into `[1, 1/2]`
through a full `process` call. -/
theorem output_is_dry_wet_blend :
    (∀ (n_ch : ℕ) (mix : ℚ) (st : Granular) (frame : List ℚ)
       (r : Granular × List ℚ), frameStep n_ch mix st frame = some r →
       ∀ ch, ch < n_ch →
         r.2.getD ch 0 =
           frame.getD ch 0 * (1 - mix) + wetSpec n_ch st.grains ch * mix) ∧
    (process id { density := 0, min_ms := 20, max_ms := 500, mix := 1 }
      { trig := 0, lenPick := 0, startPick := 0, chPick := 0 } 2 [[0, 0]]
      { ring := List.replicate 5 0, wr := 0
      , grains := [Grain.mk [1] 0 0, Grain.mk [1/2] 0 1], sr := 1 }).map
      (fun r => r.2.1) = some [[1, 1/2]] := by
  constructor
  · intro n_ch mix st frame r h ch hch
    obtain ⟨mono, mixes, -, -, ha, ho, -⟩ := frameStep_some _ _ _ _ _ h
    rw [mixOut_getD _ _ _ _ _ ho ch hch,
      accumGrains_getD _ _ _ _ (by simp) ha ch hch, getD_replicate_zero, zero_add]
  · with_unfolding_all decide

/-- Witness for the routed-blend formula in C4: processing the silent
stereo frame with the two grains of the concrete scenario, channel 0 of
the output equals `dry * (1 - mix) + wetSpec * mix` evaluated there. -/
theorem output_is_dry_wet_blend_witness :
    ([1, (1/2:ℚ)]).getD 0 0 =
      ([0, (0:ℚ)]).getD 0 0 * (1 - 1)
        + wetSpec 2 [Grain.mk [1] 0 0, Grain.mk [1/2] 0 1] 0 * 1 :=
  output_is_dry_wet_blend.1 2 1
    { ring := List.replicate 5 0, wr := 0
    , grains := [Grain.mk [1] 0 0, Grain.mk [1/2] 0 1], sr := 1 }
    [0, 0]
    ({ ring := List.replicate 5 0, wr := 1
     , grains := [Grain.mk [1] 1 0, Grain.mk [1/2] 1 1], sr := 1 }, [1, 1/2])
    (by with_unfolding_all decide) 0 (by decide)

/-! ## Claim C10: wet accumulation is total in the grain channel index -/

/-- C10 (implicit safety claim): during wet accumulation with at least one
channel, every grain's contribution goes to channel `ch % n_ch`, which is
always a valid index, so the accumulation never performs an out-of-range
channel access: it is total (never panics), yields one accumulator per
channel, and each channel receives exactly its routed sum — also for
grains whose stored channel index is `≥ n_ch` (spawned under a wider
layout), which are folded back into a valid channel. -/
theorem wet_accum_total_mod_channel (n_ch : ℕ) (grains : List Grain)
    (h : 1 ≤ n_ch) :
    (∀ g ∈ grains, g.ch % n_ch < n_ch) ∧
    ∃ res, accumGrains n_ch grains (List.replicate n_ch 0) = some res ∧
      res.length = n_ch ∧
      ∀ ch, ch < n_ch → res.getD ch 0 = wetSpec n_ch grains ch := by
  constructor
  · intro g _
    exact Nat.mod_lt _ h
  · obtain ⟨res, hres⟩ := accumGrains_total n_ch grains _ h
    refine ⟨res, hres, ?_, ?_⟩
    · rw [accumGrains_length _ _ _ _ hres, List.length_replicate]
    · intro ch hch
      rw [accumGrains_getD _ _ _ _ (by simp) hres ch hch,
        getD_replicate_zero, zero_add]

/-- Witness for C10: a single grain stored with channel index 5 on a mono
layout is folded back into channel `5 % 1 = 0` and accumulated there. -/
theorem wet_accum_total_mod_channel_witness :
    (∀ g ∈ [Grain.mk [(2:ℚ)] 0 5], g.ch % 1 < 1) ∧
    ∃ res, accumGrains 1 [Grain.mk [(2:ℚ)] 0 5] (List.replicate 1 0) = some res ∧
      res.length = 1 ∧
      ∀ ch, ch < 1 → res.getD ch 0 = wetSpec 1 [Grain.mk [(2:ℚ)] 0 5] ch :=
  wet_accum_total_mod_channel 1 [Grain.mk [2] 0 5] (by decide)
